import Mathlib

/-!
# indexd: access check, connection handler and listing generator

A shallow embedding of `cmd/indexd/indexd.go`.

* Go strings are Lean `String`s.  A Go `error` is an `Option GoError`, `none` being `nil`.
* The package-level variables `isDebug`, `listing` and `conf` are the fields of `Globals`
  (the fourth one, `logfile`, is never assigned by the program: `initLogging` declares a
  local of the same name).
* Everything a function does to the outside (log lines, channel sends, the start of a
  directory walk, writes to and closes of the connection) is appended, in program order,
  to the `trace` of the `World` it runs in.
* `strings.Split`, `filepath.Walk`, `filepath.Join` and `filepath.Clean` belong to the Go
  standard library; they are embedded from their library sources (Unix paths), `Split`
  for the one-character separator the program passes.
* A handler is run from its first statement to its return without another handler
  running in between (sequential handling).
-/

namespace Indexd

/-! ## Standard library: errors, `strings.Split` -/

/-- Go `error` values the program can meet: the two sentinels of `path/filepath` and any
other error, kept with its message. -/
inductive GoError where
  | SkipDir : GoError
  | SkipAll : GoError
  | other (msg : String) : GoError
  deriving DecidableEq, Repr

/-- The method `Error()` of an error value. -/
def GoError.Error : GoError → String
  | .SkipDir => "skip this directory"
  | .SkipAll => "skip everything and stop the walk"
  | .other msg => msg

/-- Splitting of a character sequence at every occurrence of `sep`; the pieces are returned
in order and there is always at least one. -/
def splitChars (sep : Char) : List Char → List (List Char)
  | [] => [[]]
  | c :: cs =>
    if c = sep then [] :: splitChars sep cs
    else
      match splitChars sep cs with
      | [] => [[c]]
      | h :: t => (c :: h) :: t

/-- Go `strings.Split(s, sep)` for a separator of one character (the program only passes
`":"`): the substrings of `s` between the separators. -/
def Split (s : String) (sep : Char) : List String :=
  (splitChars sep s.data).map String.mk

theorem splitChars_ne_nil (sep : Char) (cs : List Char) : splitChars sep cs ≠ [] := by
  cases cs with
  | nil => simp [splitChars]
  | cons c cs =>
    unfold splitChars
    split
    · simp
    · split <;> simp

theorem Split_ne_nil (s : String) (sep : Char) : Split s sep ≠ [] := by
  simp [Split, splitChars_ne_nil]

/-! ## Standard library: the file tree and `filepath.Walk` -/

/-- Go `os.FileInfo`, reduced to the one method `filepath.Walk` consults. -/
structure FileInfo where
  IsDir : Bool
  deriving DecidableEq, Repr

mutual
/-- What the file system holds at one path. -/
inductive FsNode where
  /-- anything `Lstat` succeeds on that is not a directory -/
  | file : FsNode
  /-- a directory with its entries, in the (sorted) order `readDirNames` returns them -/
  | dir : FsEntries → FsNode
  /-- a directory whose entries cannot be read: `readDirNames` fails with the error -/
  | unreadable : GoError → FsNode
  /-- a name on which `Lstat` fails with the error -/
  | broken : GoError → FsNode
/-- The named entries of a directory. -/
inductive FsEntries where
  | nil : FsEntries
  | cons : String → FsNode → FsEntries → FsEntries
end

/-- Go `os.Lstat` on the node found at a path. -/
def lstat : FsNode → Except GoError FileInfo
  | .file => .ok { IsDir := false }
  | .dir _ => .ok { IsDir := true }
  | .unreadable _ => .ok { IsDir := true }
  | .broken e => .error e

/-- The error `readDirNames` returns on a node that is not a readable directory. -/
def readDirErr : FsNode → GoError
  | .unreadable e => e
  | .broken e => e
  | _ => .other "not a directory"

/-- The path elements kept so far (last one first) after the next element `elem` of a
path has been read by `filepath.Clean`: an empty element and `.` are dropped; `..` removes
the last kept element when there is one that is not itself `..`, is dropped at the top of
a rooted path, and is kept otherwise; any other element is kept. -/
def cleanStep (rooted : Bool) (kept : List (List Char)) (elem : List Char) :
    List (List Char) :=
  if elem = [] ∨ elem = ['.'] then kept
  else if elem = ['.', '.'] then
    match kept with
    | [] => if rooted then [] else [elem]
    | top :: rest => if top = ['.', '.'] then elem :: kept else rest
  else elem :: kept

/-- The elements joined by single separators. -/
def joinElems : List (List Char) → List Char
  | [] => []
  | [e] => e
  | e :: es => e ++ '/' :: joinElems es

/-- Go `filepath.Clean` on the characters of a path: the elements between the separators
are read from left to right by `cleanStep`, the kept ones are joined by single separators
after a leading separator when the path is rooted, and the empty result is `.`. -/
def cleanChars (path : List Char) : List Char :=
  if path = [] then ['.']
  else
    let rooted : Bool := path.head? = some '/'
    let kept := (splitChars '/' path).foldl (cleanStep rooted) []
    let out := if rooted then '/' :: joinElems kept.reverse else joinElems kept.reverse
    if out = [] then ['.'] else out

/-- Go `filepath.Clean(path)`. -/
def Clean (path : String) : String := String.mk (cleanChars path.data)

/-- Go `filepath.Join(path, name)`: the elements from the first non-empty one on, joined
by the separator and cleaned; the empty string when both are empty. -/
def Join (path name : String) : String :=
  if path ≠ "" then Clean (path ++ "/" ++ name)
  else if name ≠ "" then Clean name
  else ""

/-- Go `filepath.WalkFunc`, with the state the callback works on passed explicitly. -/
abbrev WalkFunc (σ : Type) := String → Option FileInfo → Option GoError → σ → σ × Option GoError

mutual
/-- Go `filepath.walk`: report `path`, then descend into it when it is a readable directory
and the callback returned `nil`. -/
def walk {σ : Type} (walkFn : WalkFunc σ) (path : String) (info : FileInfo) :
    FsNode → σ → σ × Option GoError
  | .dir es, s =>
    if !info.IsDir then walkFn path (some info) none s
    else
      let r := walkFn path (some info) none s
      if r.2 ≠ none then r
      else walkEntries walkFn path es r.1
  | node, s =>
    if !info.IsDir then walkFn path (some info) none s
    else walkFn path (some info) (some (readDirErr node)) s
/-- The loop `for _, name := range names` of `filepath.walk`. -/
def walkEntries {σ : Type} (walkFn : WalkFunc σ) (path : String) :
    FsEntries → σ → σ × Option GoError
  | .nil, s => (s, none)
  | .cons name node rest, s =>
    let filename := Join path name
    match lstat node with
    | .error err =>
      let r := walkFn filename none (some err) s
      if r.2 ≠ none ∧ r.2 ≠ some GoError.SkipDir then r
      else walkEntries walkFn path rest r.1
    | .ok fileInfo =>
      let r := walk walkFn filename fileInfo node s
      if r.2 ≠ none ∧ (fileInfo.IsDir = false ∨ r.2 ≠ some GoError.SkipDir) then r
      else walkEntries walkFn path rest r.1
end

/-- Go `filepath.Walk(root, fn)` on the tree `fs` found at `root`. -/
def Walk {σ : Type} (root : String) (fs : FsNode) (fn : WalkFunc σ) (s : σ) :
    σ × Option GoError :=
  let r :=
    match lstat fs with
    | .error err => fn root none (some err) s
    | .ok info => walk fn root info fs s
  if r.2 = some GoError.SkipDir ∨ r.2 = some GoError.SkipAll then (r.1, none) else r

/-! ## The program -/

/-- The type `indexdConfig`. -/
structure indexdConfig where
  IndexdDirectory : String
  ACL : List String
  Address : String
  Port : String
  Logfile : String
  Cert : String
  Key : String
  deriving DecidableEq, Repr

/-- The package-level variables. -/
structure Globals where
  isDebug : Bool
  listing : String
  conf : indexdConfig
  deriving DecidableEq, Repr

/-- One effect on the outside of the process. -/
inductive Event where
  /-- a line handed to `log.Println` -/
  | log (line : String) : Event
  /-- a value sent on the channel `msg` -/
  | send (m : String) : Event
  /-- a call of `filepath.Walk` on the given root -/
  | Walk (root : String) : Event
  /-- a call of `io.WriteString` on the connection with the given payload -/
  | WriteString (payload : String) : Event
  /-- a call of `Close` on the connection -/
  | Close : Event
  deriving DecidableEq, Repr

/-- The package-level variables together with the effects so far, oldest first. -/
structure World where
  vars : Globals
  trace : List Event
  deriving DecidableEq, Repr

/-- An accepted connection, as far as the handler depends on it: the text of
`RemoteAddr().String()` and the error its `Write` returns (`none` when the write
succeeds). -/
structure Conn where
  remoteAddr : String
  writeErr : Option GoError
  deriving DecidableEq, Repr

/-- Append one effect to the trace. -/
def World.emit (w : World) (e : Event) : World :=
  { w with trace := w.trace ++ [e] }

/-- The function `clear`: the string behind the pointer becomes empty. -/
def clear (_s : String) : String := ""

/-- The function `logger`. -/
def logger (messages : List String) (w : World) : World :=
  let lstr := messages.foldl (fun lstr m => lstr ++ m) ("" ++ "Indexd: ")
  w.emit (.log lstr)

/-- The function `do`, the callback of the walk: the error argument is ignored. -/
def «do» (path : String) (_info : Option FileInfo) (_err : Option GoError) (g : Globals) :
    Globals × Option GoError :=
  ({ g with listing := g.listing ++ (path ++ "\n") }, none)

/-- The function `getListing`; nothing is returned, the result of `filepath.Walk` is
dropped. -/
def getListing (fs : FsNode) (w : World) : World :=
  let w := w.emit (.Walk w.vars.conf.IndexdDirectory)
  { w with vars := (Walk w.vars.conf.IndexdDirectory fs «do» w.vars).1 }

/-- The function `sendIndex`. -/
def sendIndex (fs : FsNode) (c : Conn) (w : World) : World :=
  let w := getListing fs w
  let w := w.emit (.WriteString w.vars.listing)
  match c.writeErr with
  | some err =>
    let w := logger ["sendIndex() WriteString", err.Error] w
    w.emit .Close
  | none => w.emit .Close

/-- The loop over `conf.ACL` in `handleClient`, started with the current value of
`isAllowed`. -/
def aclLoop (remoteAddr : String) : List String → Bool → Bool
  | [], isAllowed => isAllowed
  | val :: rest, isAllowed =>
    let aclAddr := Split val ':'
    let clientAddr := Split remoteAddr ':'
    if aclAddr.head (Split_ne_nil val ':') = clientAddr.head (Split_ne_nil remoteAddr ':') then
      true
    else aclLoop remoteAddr rest isAllowed

/-- The access decision of `handleClient`: the value of `isAllowed` after the loop. -/
def isAllowed (acl : List String) (remoteAddr : String) : Bool :=
  aclLoop remoteAddr acl false

/-- The function `handleClient`, with `fs` the tree found at the configured directory
while it runs. -/
def handleClient (fs : FsNode) (client : Conn) (w : World) : World :=
  let w := logger ["handleClient", ": ", "Client from ip/port ->", client.remoteAddr] w
  if !isAllowed w.vars.conf.ACL client.remoteAddr then
    let w := logger ["Denied connection from", client.remoteAddr] w
    let w := w.emit .Close
    w.emit .Close
  else
    let w := w.emit (.send "Sending Index to client")
    let w := sendIndex fs client w
    let w := { w with vars := { w.vars with listing := clear w.vars.listing } }
    w.emit .Close

/-- The receive `msg := <-messages` of `server`, given what the dispatched handler does
after `before`: the first value it sends, or `none` when it returns without sending and
the receive is never matched. -/
def receive (before after : World) : Option String :=
  (after.trace.drop before.trace.length).findSome? fun e =>
    match e with
    | .send m => some m
    | _ => none

/-- The world when `server` starts accepting: the configuration is loaded, the listing is
the empty string and nothing has happened yet. -/
def startWorld (conf : indexdConfig) (isDebug : Bool) : World :=
  { vars := { isDebug := isDebug, listing := "", conf := conf }, trace := [] }

/-- Connections handled one after the other, each against the tree present at its time. -/
def handleAll : List (Conn × FsNode) → World → World
  | [], w => w
  | (client, fs) :: rest, w => handleAll rest (handleClient fs client w)

/-! ## Observations on a trace -/

/-- The payloads of the write calls in a trace, in order. -/
def writesOf : List Event → List String
  | [] => []
  | .WriteString p :: t => p :: writesOf t
  | _ :: t => writesOf t

/-- The values sent on the channel in a trace, in order. -/
def sendsOf : List Event → List String
  | [] => []
  | .send m :: t => m :: sendsOf t
  | _ :: t => sendsOf t

/-- The roots of the walks started in a trace, in order. -/
def walksOf : List Event → List String
  | [] => []
  | .Walk r :: t => r :: walksOf t
  | _ :: t => walksOf t

/-- The number of `Close` calls in a trace. -/
def closesOf : List Event → Nat
  | [] => 0
  | .Close :: t => closesOf t + 1
  | _ :: t => closesOf t

/-- The effects a handler adds to the world it was started in. -/
def effects (fs : FsNode) (client : Conn) (w : World) : List Event :=
  (handleClient fs client w).trace.drop w.trace.length

/-! ## Specification-side notions -/

/-- The text of `s` before its first `':'`, the whole of `s` when it holds none. -/
def firstField (s : String) : String :=
  String.mk (s.data.takeWhile fun c => c != ':')

/-- The host portion of an address: the text before its port separator, which is the
final `':'` when only digits follow it; the whole address when it has no such port
suffix. -/
def wholeHost (s : String) : String :=
  match s.data.reverse.dropWhile Char.isDigit with
  | ':' :: h => String.mk h.reverse
  | _ => s

/-- The listing text for a sequence of paths: each path followed by one newline. -/
def concatLines : List String → String
  | [] => ""
  | p :: ps => p ++ "\n" ++ concatLines ps

/-- One call of the walk callback: path, file info and error. -/
abbrev Report := String × Option FileInfo × Option GoError

mutual
/-- The calls `filepath.Walk` makes on a tree when no call returns an error: the node
itself, then, for a readable directory, the calls for its entries in order. -/
def reports (path : String) : FsNode → List Report
  | .file => [(path, some { IsDir := false }, none)]
  | .dir es => (path, some { IsDir := true }, none) :: reportsEntries path es
  | .unreadable e => [(path, some { IsDir := true }, some e)]
  | .broken e => [(path, none, some e)]
/-- The calls for the entries of the directory at `path`. -/
def reportsEntries (path : String) : FsEntries → List Report
  | .nil => []
  | .cons name node rest => reports (Join path name) node ++ reportsEntries path rest
end

/-- The paths the walk visits, in visit order. -/
def visits (root : String) (fs : FsNode) : List String :=
  (reports root fs).map fun r => r.1

/-- A walk callback that only notes the path it is called with and returns `nil`. -/
def record : WalkFunc (List String) :=
  fun path _info _err seen => (seen ++ [path], none)

/-- A received body split on newline, the empty strings removed. -/
def bodyLines (body : String) : List String :=
  (Split body '\n').filter fun l => l ≠ ""


/-- The state after the callback has been called on each report in turn. -/
def foldReports {σ : Type} (walkFn : WalkFunc σ) (rs : List Report) (s : σ) : σ :=
  rs.foldl (fun s r => (walkFn r.1 r.2.1 r.2.2 s).1) s

/-- The line `logger` hands to `log.Println` for the given messages. -/
def logLine (messages : List String) : String :=
  messages.foldl (fun lstr m => lstr ++ m) "Indexd: "

/-- A configuration with the ACL of the scenario, `["10.0.0.5"]`. -/
def sampleConf : indexdConfig :=
  { IndexdDirectory := "/srv/index", ACL := ["10.0.0.5"], Address := "0.0.0.0",
    Port := "4444", Logfile := "/var/log/indexd.log", Cert := "/etc/indexd/cert.pem",
    Key := "/etc/indexd/key.pem" }

/-- A directory holding exactly the file `a.txt` and the file `sub/b.txt`. -/
def sampleTree : FsNode :=
  .dir (.cons "a.txt" .file (.cons "sub" (.dir (.cons "b.txt" .file .nil)) .nil))

/-- A directory with an entry that cannot be stat-ed, a subdirectory that cannot be read,
and a file after both. -/
def faultyTree : FsNode :=
  .dir (.cons "bad" (.broken (.other "permission denied"))
    (.cons "locked" (.unreadable (.other "permission denied")) (.cons "z" .file .nil)))

/-! ## The access check -/

theorem splitChars_head? (sep : Char) (cs : List Char) :
    (splitChars sep cs).head? = some (cs.takeWhile fun c => c != sep) := by
  induction cs with
  | nil => simp [splitChars]
  | cons c cs ih =>
    unfold splitChars
    by_cases h : c = sep
    · simp [h]
    · cases hs : splitChars sep cs with
      | nil => exact absurd hs (splitChars_ne_nil sep cs)
      | cons x t =>
        rw [hs] at ih
        simp only [List.head?_cons, Option.some.injEq] at ih
        simp [h, ih]

theorem Split_head (s : String) (sep : Char) :
    (Split s sep).head (Split_ne_nil s sep) = String.mk (s.data.takeWhile fun c => c != sep) := by
  have h := splitChars_head? sep s.data
  have h2 : (Split s sep).head? = some (String.mk (s.data.takeWhile fun c => c != sep)) := by
    simp [Split, List.head?_map, h]
  have h3 := List.head?_eq_head (Split_ne_nil s sep)
  rw [h3] at h2
  exact Option.some.inj h2

theorem aclLoop_eq_true (remoteAddr : String) (acl : List String) (b : Bool) :
    aclLoop remoteAddr acl b = true ↔
      b = true ∨ ∃ e ∈ acl, firstField e = firstField remoteAddr := by
  induction acl with
  | nil => simp [aclLoop]
  | cons val rest ih =>
    unfold aclLoop
    simp only [Split_head]
    by_cases h : firstField val = firstField remoteAddr
    · have h2 := h
      unfold firstField at h2
      simp only [h2, if_true, true_iff]
      exact Or.inr ⟨val, List.mem_cons_self _ _, h⟩
    · have h2 := h
      unfold firstField at h2
      simp only [h2, if_false, ih, List.mem_cons, exists_eq_or_imp, h, false_or]

theorem takeWhile_append_colon (l r : List Char) (hl : ':' ∉ l) :
    (l ++ (':' :: r)).takeWhile (fun c => c != ':') = l := by
  induction l with
  | nil => simp
  | cons a l ih =>
    have ha : a ≠ ':' := fun e => hl (e ▸ List.mem_cons_self _ _)
    have hl2 : ':' ∉ l := fun m => hl (List.mem_cons_of_mem _ m)
    simp [List.takeWhile_cons, ha, ih hl2]

theorem dropWhile_digits_append_colon (p h : List Char) (hp : ∀ c ∈ p, c.isDigit = true) :
    (p ++ (':' :: h)).dropWhile Char.isDigit = ':' :: h := by
  induction p with
  | nil =>
    have hc : Char.isDigit ':' = false := by decide
    simp [List.dropWhile_cons, hc]
  | cons a p ih =>
    have ha : a.isDigit = true := hp a (List.mem_cons_self _ _)
    have hp2 : ∀ c ∈ p, c.isDigit = true := fun c hc => hp c (List.mem_cons_of_mem _ hc)
    simp [List.dropWhile_cons, ha, ih hp2]

/-- On an address `host:port` with decimal port and a host without `':'`, the text before
the first `':'` is the host portion: there the cut of the access check is the right one. -/
theorem firstField_eq_wholeHost_host_port (host port : String) (h : ':' ∉ host.data)
    (hp : ∀ c ∈ port.data, c.isDigit = true) :
    firstField (host ++ ":" ++ port) = host ∧ wholeHost (host ++ ":" ++ port) = host := by
  have h1 : (host ++ ":" ++ port).data = host.data ++ (':' :: port.data) := by
    simp [String.data_append]
  constructor
  · unfold firstField
    rw [h1, takeWhile_append_colon _ _ h]
  · unfold wholeHost
    have h2 : (host ++ ":" ++ port).data.reverse.dropWhile Char.isDigit
        = ':' :: host.data.reverse := by
      rw [h1, List.reverse_append, List.reverse_cons, List.append_assoc]
      have hp2 : ∀ c ∈ port.data.reverse, c.isDigit = true :=
        fun c hc => hp c (List.mem_reverse.mp hc)
      exact dropWhile_digits_append_colon _ _ hp2
    rw [h2]
    simp

/-- On an address without `':'` the text before the first `':'` and the host portion are
both the whole address. -/
theorem firstField_eq_wholeHost_no_port (host : String) (h : ':' ∉ host.data) :
    firstField host = host ∧ wholeHost host = host := by
  constructor
  · unfold firstField
    have h2 : ∀ (l : List Char), ':' ∉ l → l.takeWhile (fun c => c != ':') = l := by
      intro l hl
      induction l with
      | nil => simp
      | cons a l ih =>
        have ha : a ≠ ':' := fun e => hl (e ▸ List.mem_cons_self _ _)
        have hl2 : ':' ∉ l := fun m => hl (List.mem_cons_of_mem _ m)
        simp [List.takeWhile_cons, ha, ih hl2]
    rw [h2 _ h]
  · unfold wholeHost
    split
    · next t heq =>
      exfalso
      have hm : ':' ∈ host.data.reverse.dropWhile Char.isDigit := by
        rw [heq]; exact List.mem_cons_self _ _
      have hs := (List.dropWhile_sublist Char.isDigit).subset hm
      exact h (List.mem_reverse.mp hs)
    · rfl

/-- C1: the access decision of `handleClient` is "allowed" exactly when some ACL entry and
the peer address have the same text before their first `':'`, which is not the claimed
match of host portions: with ACL `["[::2]:443"]` the peer `[::1]:51000` is allowed
although no entry has its host portion `[::1]`. The scenario instances hold: with ACL
`["10.0.0.5"]` the peer `10.0.0.5:51000` is allowed and `10.0.0.6:51000` is denied, and
the empty ACL denies every peer. -/
theorem acl_check_cuts_at_first_colon :
    (∀ (acl : List String) (peer : String),
      isAllowed acl peer = true ↔ ∃ e ∈ acl, firstField e = firstField peer) ∧
    isAllowed ["[::2]:443"] "[::1]:51000" = true ∧
    ¬ (∃ e ∈ ["[::2]:443"], wholeHost e = wholeHost "[::1]:51000") ∧
    ¬ (isAllowed ["[::2]:443"] "[::1]:51000" = true ↔
        ∃ e ∈ ["[::2]:443"], wholeHost e = wholeHost "[::1]:51000") ∧
    isAllowed ["10.0.0.5"] "10.0.0.5:51000" = true ∧
    isAllowed ["10.0.0.5"] "10.0.0.6:51000" = false ∧
    ∀ peer : String, isAllowed [] peer = false := by
  have key : ∀ (acl : List String) (peer : String),
      isAllowed acl peer = true ↔ ∃ e ∈ acl, firstField e = firstField peer := by
    intro acl peer
    unfold isAllowed
    rw [aclLoop_eq_true]
    simp
  have hno : ¬ (∃ e ∈ ["[::2]:443"], wholeHost e = wholeHost "[::1]:51000") := by
    decide
  refine ⟨key, by decide, hno, ?_, by decide, by decide, fun peer => rfl⟩
  intro hiff
  exact hno (hiff.1 (by decide))

/-- C10: at ACL `["[::2]:443"]` the peer `[::1]:51000` is allowed although the whole hosts
`[::2]` and `[::1]` differ: both addresses are cut at their first `':'`, which leaves the
common prefix `[`. -/
theorem ipv6_peer_allowed_on_shared_bracket :
    isAllowed ["[::2]:443"] "[::1]:51000" = true ∧
    wholeHost "[::2]:443" = "[::2]" ∧ wholeHost "[::1]:51000" = "[::1]" ∧
    wholeHost "[::2]:443" ≠ wholeHost "[::1]:51000" ∧
    (Split "[::2]:443" ':').head (Split_ne_nil _ _) = "[" ∧
    (Split "[::1]:51000" ':').head (Split_ne_nil _ _) = "[" := by
  decide

/-! ## The walk under a callback that always returns `nil` -/

theorem foldReports_append {σ : Type} (walkFn : WalkFunc σ) (a b : List Report) (s : σ) :
    foldReports walkFn (a ++ b) s = foldReports walkFn b (foldReports walkFn a s) := by
  simp [foldReports, List.foldl_append]

mutual
theorem walk_eq_fold {σ : Type} (walkFn : WalkFunc σ)
    (hnil : ∀ p i e s, (walkFn p i e s).2 = none) (path : String) (info : FileInfo) :
    ∀ (node : FsNode) (s : σ), lstat node = .ok info →
      walk walkFn path info node s = (foldReports walkFn (reports path node) s, none)
  | .file, s, h => by
    have hi : info = { IsDir := false } := by
      simp only [lstat, Except.ok.injEq] at h
      exact h.symm
    subst hi
    simp only [walk, reports, foldReports, List.foldl_cons, List.foldl_nil, Bool.not_false,
      if_true]
    exact Prod.ext rfl (hnil _ _ _ _)
  | .dir es, s, h => by
    have hi : info = { IsDir := true } := by
      simp only [lstat, Except.ok.injEq] at h
      exact h.symm
    subst hi
    simp only [walk, reports, hnil, foldReports, List.foldl_cons]
    simp only [Bool.not_true, ne_eq, not_true_eq_false, if_false, Bool.false_eq_true]
    exact walkEntries_eq_fold walkFn hnil path es _
  | .unreadable e, s, h => by
    have hi : info = { IsDir := true } := by
      simp only [lstat, Except.ok.injEq] at h
      exact h.symm
    subst hi
    simp only [walk, reports, foldReports, List.foldl_cons, List.foldl_nil, readDirErr]
    exact Prod.ext rfl (hnil _ _ _ _)
  | .broken e, s, h => by
    simp [lstat] at h
theorem walkEntries_eq_fold {σ : Type} (walkFn : WalkFunc σ)
    (hnil : ∀ p i e s, (walkFn p i e s).2 = none) (path : String) :
    ∀ (es : FsEntries) (s : σ),
      walkEntries walkFn path es s = (foldReports walkFn (reportsEntries path es) s, none)
  | .nil, s => by simp [walkEntries, reportsEntries, foldReports]
  | .cons name node rest, s => by
    cases hl : lstat node with
    | error err =>
      have hn : node = .broken err := by
        cases node <;> simp [lstat] at hl
        rw [hl]
      subst hn
      simp only [walkEntries, lstat, hnil, reportsEntries, reports, foldReports_append]
      simp only [ne_eq, not_true_eq_false, false_and, if_false]
      rw [walkEntries_eq_fold walkFn hnil path rest]
      simp [foldReports]
    | ok fileInfo =>
      have hw := walk_eq_fold walkFn hnil (Join path name) fileInfo node s hl
      simp only [walkEntries, hl, hw, reportsEntries, foldReports_append]
      simp only [ne_eq, not_true_eq_false, false_and, if_false]
      rw [walkEntries_eq_fold walkFn hnil path rest]
end

theorem Walk_eq_fold {σ : Type} (walkFn : WalkFunc σ)
    (hnil : ∀ p i e s, (walkFn p i e s).2 = none) (root : String) (fs : FsNode) (s : σ) :
    Walk root fs walkFn s = (foldReports walkFn (reports root fs) s, none) := by
  unfold Walk
  cases hl : lstat fs with
  | error err =>
    have hn : fs = .broken err := by
      cases fs <;> simp [lstat] at hl
      rw [hl]
    subst hn
    simp only [hnil, reports, foldReports, List.foldl_cons, List.foldl_nil]
    simp only [reduceCtorEq, or_self, if_false]
    exact Prod.ext rfl (hnil _ _ _ _)
  | ok info =>
    simp only [walk_eq_fold walkFn hnil root info fs s hl]
    simp

theorem foldReports_record (rs : List Report) (seen : List String) :
    foldReports record rs seen = seen ++ rs.map fun r => r.1 := by
  induction rs generalizing seen with
  | nil => simp [foldReports]
  | cons r rs ih =>
    have h : foldReports record (r :: rs) seen = foldReports record rs (seen ++ [r.1]) := rfl
    rw [h, ih]
    simp

/-- The paths `visits` gives are the paths `filepath.Walk` calls its callback with. -/
theorem Walk_record (root : String) (fs : FsNode) :
    Walk root fs record [] = (visits root fs, none) := by
  rw [Walk_eq_fold record (fun _ _ _ _ => rfl), foldReports_record]
  simp [visits]

theorem concatLines_append (a b : List String) :
    concatLines (a ++ b) = concatLines a ++ concatLines b := by
  induction a with
  | nil => simp [concatLines]
  | cons p ps ih => simp [concatLines, ih, String.append_assoc]

theorem foldReports_do (rs : List Report) (g : Globals) :
    foldReports «do» rs g =
      { g with listing := g.listing ++ concatLines (rs.map fun r => r.1) } := by
  induction rs generalizing g with
  | nil => simp [foldReports, concatLines]
  | cons r rs ih =>
    have h : foldReports «do» (r :: rs) g = foldReports «do» rs («do» r.1 r.2.1 r.2.2 g).1 := rfl
    rw [h, ih]
    simp [«do», concatLines, String.append_assoc]

theorem Walk_do (root : String) (fs : FsNode) (g : Globals) :
    Walk root fs «do» g =
      ({ g with listing := g.listing ++ concatLines (visits root fs) }, none) := by
  rw [Walk_eq_fold «do» (fun _ _ _ _ => rfl), foldReports_do]
  rfl

/-! ## The handler -/

theorem logger_eq (messages : List String) (w : World) :
    logger messages w = { vars := w.vars, trace := w.trace ++ [.log (logLine messages)] } := by
  rfl

theorem getListing_eq (fs : FsNode) (w : World) :
    getListing fs w =
      { vars := { w.vars with
                  listing := w.vars.listing ++ concatLines (visits w.vars.conf.IndexdDirectory fs) },
        trace := w.trace ++ [.Walk w.vars.conf.IndexdDirectory] } := by
  simp [getListing, World.emit, Walk_do]

/-- What the write-error branch of `sendIndex` adds to the trace. -/
theorem sendIndex_eq (fs : FsNode) (c : Conn) (w : World) :
    sendIndex fs c w =
      { vars := { w.vars with
                  listing := w.vars.listing ++ concatLines (visits w.vars.conf.IndexdDirectory fs) },
        trace := w.trace ++
          ([.Walk w.vars.conf.IndexdDirectory,
            .WriteString (w.vars.listing ++ concatLines (visits w.vars.conf.IndexdDirectory fs))] ++
           ((match c.writeErr with
             | some err => [Event.log (logLine ["sendIndex() WriteString", err.Error])]
             | none => []) ++ [.Close])) } := by
  unfold sendIndex
  rw [getListing_eq]
  cases c.writeErr <;> simp [World.emit, logger_eq]

theorem handleClient_denied (fs : FsNode) (client : Conn) (w : World)
    (h : isAllowed w.vars.conf.ACL client.remoteAddr = false) :
    handleClient fs client w =
      { vars := w.vars,
        trace := w.trace ++
          [.log (logLine ["handleClient", ": ", "Client from ip/port ->", client.remoteAddr]),
           .log (logLine ["Denied connection from", client.remoteAddr]), .Close, .Close] } := by
  unfold handleClient
  simp [logger_eq, h, World.emit]

theorem handleClient_allowed (fs : FsNode) (client : Conn) (w : World)
    (h : isAllowed w.vars.conf.ACL client.remoteAddr = true) :
    handleClient fs client w =
      { vars := { w.vars with listing := "" },
        trace := w.trace ++
          ([.log (logLine ["handleClient", ": ", "Client from ip/port ->", client.remoteAddr]),
            .send "Sending Index to client",
            .Walk w.vars.conf.IndexdDirectory,
            .WriteString (w.vars.listing ++ concatLines (visits w.vars.conf.IndexdDirectory fs))] ++
           ((match client.writeErr with
             | some err => [Event.log (logLine ["sendIndex() WriteString", err.Error])]
             | none => []) ++ [.Close, .Close])) } := by
  unfold handleClient
  simp [logger_eq, h, World.emit, sendIndex_eq, clear]

theorem handleClient_vars (fs : FsNode) (client : Conn) (w : World)
    (h : w.vars.listing = "") : (handleClient fs client w).vars = w.vars := by
  cases ha : isAllowed w.vars.conf.ACL client.remoteAddr
  · rw [handleClient_denied fs client w ha]
  · rw [handleClient_allowed fs client w ha]
    simp only
    rw [← h]

theorem handleAll_vars (history : List (Conn × FsNode)) (w : World)
    (h : w.vars.listing = "") : (handleAll history w).vars = w.vars := by
  induction history generalizing w with
  | nil => rfl
  | cons r rest ih =>
    obtain ⟨client, fs⟩ := r
    have hv := handleClient_vars fs client w h
    simp only [handleAll]
    rw [ih _ (by rw [hv]; exact h), hv]

theorem effects_denied (fs : FsNode) (client : Conn) (w : World)
    (h : isAllowed w.vars.conf.ACL client.remoteAddr = false) :
    effects fs client w =
      [.log (logLine ["handleClient", ": ", "Client from ip/port ->", client.remoteAddr]),
       .log (logLine ["Denied connection from", client.remoteAddr]), .Close, .Close] := by
  unfold effects
  rw [handleClient_denied fs client w h]
  simp

theorem effects_allowed (fs : FsNode) (client : Conn) (w : World)
    (h : isAllowed w.vars.conf.ACL client.remoteAddr = true) :
    effects fs client w =
      [.log (logLine ["handleClient", ": ", "Client from ip/port ->", client.remoteAddr]),
       .send "Sending Index to client",
       .Walk w.vars.conf.IndexdDirectory,
       .WriteString (w.vars.listing ++ concatLines (visits w.vars.conf.IndexdDirectory fs))] ++
      ((match client.writeErr with
        | some err => [Event.log (logLine ["sendIndex() WriteString", err.Error])]
        | none => []) ++ [.Close, .Close]) := by
  unfold effects
  rw [handleClient_allowed fs client w h]
  simp

theorem handleClient_trace (fs : FsNode) (client : Conn) (w : World) :
    (handleClient fs client w).trace = w.trace ++ effects fs client w := by
  cases ha : isAllowed w.vars.conf.ACL client.remoteAddr
  · rw [effects_denied fs client w ha, handleClient_denied fs client w ha]
  · rw [effects_allowed fs client w ha, handleClient_allowed fs client w ha]

theorem writesOf_allowed (fs : FsNode) (client : Conn) (w : World)
    (h : isAllowed w.vars.conf.ACL client.remoteAddr = true) :
    writesOf (effects fs client w) =
      [w.vars.listing ++ concatLines (visits w.vars.conf.IndexdDirectory fs)] := by
  rw [effects_allowed fs client w h]
  cases client.writeErr <;> simp [writesOf]

/-! ## Splitting a listing into lines -/

theorem splitChars_append_sep (sep : Char) (l r : List Char) (h : sep ∉ l) :
    splitChars sep (l ++ sep :: r) = l :: splitChars sep r := by
  induction l with
  | nil => simp [splitChars]
  | cons a l ih =>
    have ha : a ≠ sep := fun e => h (e ▸ List.mem_cons_self _ _)
    have hl : sep ∉ l := fun m => h (List.mem_cons_of_mem _ m)
    have hs : splitChars sep (a :: (l ++ sep :: r)) =
        (match splitChars sep (l ++ sep :: r) with
          | [] => [[a]]
          | x :: t => (a :: x) :: t) := by
      rw [splitChars]
      simp [ha]
    rw [List.cons_append, hs, ih hl]

theorem Split_concatLines (ps : List String) (h : ∀ p ∈ ps, '\n' ∉ p.data) :
    Split (concatLines ps) '\n' = ps ++ [""] := by
  induction ps with
  | nil => decide
  | cons p ps ih =>
    have hp : '\n' ∉ p.data := h p (List.mem_cons_self _ _)
    have hps : ∀ q ∈ ps, '\n' ∉ q.data := fun q hq => h q (List.mem_cons_of_mem _ hq)
    have hd : (concatLines (p :: ps)).data = p.data ++ '\n' :: (concatLines ps).data := by
      simp [concatLines, String.data_append]
    have ih2 := ih hps
    unfold Split at ih2 ⊢
    rw [hd, splitChars_append_sep _ _ _ hp, List.map_cons, ih2]
    rfl

theorem bodyLines_concatLines (ps : List String)
    (h : ∀ p ∈ ps, p ≠ "" ∧ '\n' ∉ p.data) : bodyLines (concatLines ps) = ps := by
  unfold bodyLines
  rw [Split_concatLines ps fun p hp => (h p hp).2]
  rw [List.filter_append]
  have h1 : List.filter (fun l => decide (l ≠ "")) ps = ps := by
    rw [List.filter_eq_self]
    intro p hp
    simpa using (h p hp).1
  rw [h1]
  simp

/-! ## `filepath.Join` on a cleaned root -/

theorem splitChars_append (sep : Char) (a b : List Char) :
    splitChars sep (a ++ sep :: b) = splitChars sep a ++ splitChars sep b := by
  induction a with
  | nil => simp [splitChars]
  | cons c a ih =>
    by_cases hc : c = sep
    · simp [splitChars, hc, ih]
    · have h1 : splitChars sep (c :: (a ++ sep :: b)) =
          (match splitChars sep (a ++ sep :: b) with
            | [] => [[c]]
            | x :: t => (c :: x) :: t) := by
        rw [splitChars]
        simp [hc]
      have h2 : splitChars sep (c :: a) =
          (match splitChars sep a with
            | [] => [[c]]
            | x :: t => (c :: x) :: t) := by
        rw [splitChars]
        simp [hc]
      rw [List.cons_append, h1, h2, ih]
      cases hs : splitChars sep a with
      | nil => exact absurd hs (splitChars_ne_nil sep a)
      | cons x t => simp

theorem splitChars_of_not_mem (sep : Char) (n : List Char) (h : sep ∉ n) :
    splitChars sep n = [n] := by
  induction n with
  | nil => simp [splitChars]
  | cons c n ih =>
    have hc : c ≠ sep := fun e => h (e ▸ List.mem_cons_self _ _)
    have hn : sep ∉ n := fun m => h (List.mem_cons_of_mem _ m)
    rw [splitChars]
    simp [hc, ih hn]

theorem joinElems_append_singleton (xs : List (List Char)) (n : List Char) (h : xs ≠ []) :
    joinElems (xs ++ [n]) = joinElems xs ++ '/' :: n := by
  induction xs with
  | nil => exact absurd rfl h
  | cons x xs ih =>
    cases xs with
    | nil => simp [joinElems]
    | cons y ys =>
      have hi := ih (by simp)
      simp only [List.cons_append] at hi ⊢
      simp only [joinElems, hi, List.append_assoc, List.cons_append]

/-- Cleaning a cleaned path, other than `/` and `.`, followed by a separator and a plain
element changes nothing. -/
theorem cleanChars_append_elem (r n : List Char) (hr : cleanChars r = r)
    (h1 : r ≠ ['/']) (h2 : r ≠ ['.']) (hn : '/' ∉ n) (hn0 : n ≠ [])
    (hn1 : n ≠ ['.']) (hn2 : n ≠ ['.', '.']) :
    cleanChars (r ++ '/' :: n) = r ++ '/' :: n := by
  have hne : r ≠ [] := by
    intro e
    rw [e] at hr
    simp [cleanChars] at hr
  have hhead : (r ++ '/' :: n).head? = r.head? := by
    cases r with
    | nil => exact absurd rfl hne
    | cons c r => simp
  have hstep : ∀ (rooted : Bool) (kept : List (List Char)),
      cleanStep rooted kept n = n :: kept := by
    intro rooted kept
    simp [cleanStep, hn0, hn1, hn2]
  unfold cleanChars at hr ⊢
  simp only [hne, if_false] at hr
  have hne2 : r ++ '/' :: n ≠ [] := by simp
  simp only [hne2, if_false, hhead, splitChars_append, splitChars_of_not_mem _ _ hn,
    List.foldl_append, List.foldl_cons, List.foldl_nil, hstep, List.reverse_cons]
  generalize (splitChars '/' r).foldl (cleanStep (decide (r.head? = some '/'))) [] = kept at hr ⊢
  generalize decide (r.head? = some '/') = rooted at hr ⊢
  have hk : kept.reverse ≠ [] := by
    intro e
    rw [e] at hr
    cases rooted
    · simp [joinElems] at hr
      exact h2 hr.symm
    · simp [joinElems] at hr
      exact h1 hr.symm
  rw [joinElems_append_singleton _ _ hk]
  cases rooted
  · simp only [Bool.false_eq_true, if_false] at hr ⊢
    by_cases he : joinElems kept.reverse = []
    · simp only [he, if_true] at hr
      exact absurd hr.symm h2
    · simp only [he, if_false] at hr
      rw [hr]
      simp
  · simp only [if_true] at hr ⊢
    simp only [reduceCtorEq, if_false] at hr
    rw [← List.cons_append, hr]
    simp

/-- On a cleaned root other than `/` and `.`, `filepath.Join` with a plain entry name
puts one separator between the two. -/
theorem Join_clean_root (root name : String) (hc : Clean root = root)
    (h1 : root ≠ "/") (h2 : root ≠ ".") (hn : '/' ∉ name.data) (hn0 : name ≠ "")
    (hn1 : name ≠ ".") (hn2 : name ≠ "..") :
    Join root name = root ++ "/" ++ name := by
  have hd : cleanChars root.data = root.data := by
    have := congrArg String.data hc
    simpa [Clean] using this
  have hne : root ≠ "" := by
    intro e
    rw [e] at hc
    exact absurd hc (by decide)
  have hx := cleanChars_append_elem root.data name.data hd
    (fun e => h1 (String.ext e)) (fun e => h2 (String.ext e)) hn
    (fun e => hn0 (String.ext e)) (fun e => hn1 (String.ext e)) (fun e => hn2 (String.ext e))
  unfold Join
  simp only [hne, ne_eq, not_false_eq_true, if_true]
  unfold Clean
  apply String.ext
  have hdat : (root ++ "/" ++ name).data = root.data ++ '/' :: name.data := by
    simp [String.data_append]
  simp only [hdat, hx]

/-- The cleaning of `filepath.Join` at roots that are not cleaned, at `.` and at `/`. -/
theorem Join_cleans :
    Join "/srv/index/" "a.txt" = "/srv/index/a.txt" ∧ Join "." "a.txt" = "a.txt" ∧
    Join "/" "a.txt" = "/a.txt" ∧ Join "/srv/index" "a.txt" = "/srv/index/a.txt" ∧
    visits "/srv/index/" sampleTree =
      ["/srv/index/", "/srv/index/a.txt", "/srv/index/sub", "/srv/index/sub/b.txt"] ∧
    visits "." sampleTree = [".", "a.txt", "sub", "sub/b.txt"] := by
  decide

theorem visits_sampleTree (root : String) (hc : Clean root = root)
    (h1 : root ≠ "/") (h2 : root ≠ ".") :
    visits root sampleTree = [root, root ++ "/a.txt", root ++ "/sub", root ++ "/sub/b.txt"] := by
  have ja : Join root "a.txt" = root ++ "/" ++ "a.txt" :=
    Join_clean_root root "a.txt" hc h1 h2 (by decide) (by decide) (by decide) (by decide)
  have js : Join root "sub" = root ++ "/" ++ "sub" :=
    Join_clean_root root "sub" hc h1 h2 (by decide) (by decide) (by decide) (by decide)
  have hne : root ≠ "" := by
    intro e
    rw [e] at hc
    exact absurd hc (by decide)
  have hcs : Clean (root ++ "/" ++ "sub") = root ++ "/" ++ "sub" := by
    have := js
    unfold Join at this
    simpa only [hne, ne_eq, not_false_eq_true, if_true] using this
  have hs1 : root ++ "/" ++ "sub" ≠ "/" := by
    intro e
    have := congrArg String.length e
    simp [String.length_append] at this
    have h3 : "sub".length = 3 := by decide
    have h4 : "/".length = 1 := by decide
    omega
  have hs2 : root ++ "/" ++ "sub" ≠ "." := by
    intro e
    have := congrArg String.length e
    simp [String.length_append] at this
    have h3 : "sub".length = 3 := by decide
    have h4 : "/".length = 1 := by decide
    have h5 : ".".length = 1 := by decide
    omega
  have jb : Join (root ++ "/" ++ "sub") "b.txt" = root ++ "/" ++ "sub" ++ "/" ++ "b.txt" :=
    Join_clean_root _ "b.txt" hcs hs1 hs2 (by decide) (by decide) (by decide) (by decide)
  simp only [visits, sampleTree, reports, reportsEntries, List.map_cons, List.map_nil,
    List.cons_append, List.nil_append, List.append_nil, List.map_append, ja, js, jb]
  have e1 : root ++ "/" ++ "a.txt" = root ++ "/a.txt" := by
    rw [String.append_assoc]; rfl
  have e2 : root ++ "/" ++ "sub" = root ++ "/sub" := by
    rw [String.append_assoc]; rfl
  have e3 : root ++ "/" ++ "sub" ++ "/" ++ "b.txt" = root ++ "/sub/b.txt" := by
    rw [String.append_assoc, String.append_assoc, String.append_assoc]; rfl
  rw [e3, e1, e2]

/-! ## The denied path -/

/-- C2: when the peer host matches no ACL entry, `handleClient` adds to the trace two log
lines and two `Close` calls and nothing else: no write on the connection, no walk started,
the package-level variables untouched, and the handler ends on a `Close` of the
connection. -/
theorem denied_writes_nothing_and_closes (fs : FsNode) (client : Conn) (w : World)
    (h : isAllowed w.vars.conf.ACL client.remoteAddr = false) :
    (handleClient fs client w).trace = w.trace ++ effects fs client w ∧
    effects fs client w =
      [.log (logLine ["handleClient", ": ", "Client from ip/port ->", client.remoteAddr]),
       .log (logLine ["Denied connection from", client.remoteAddr]), .Close, .Close] ∧
    writesOf (effects fs client w) = [] ∧
    walksOf (effects fs client w) = [] ∧
    0 < closesOf (effects fs client w) ∧
    (effects fs client w).getLast? = some .Close ∧
    (handleClient fs client w).vars = w.vars := by
  refine ⟨handleClient_trace fs client w, effects_denied fs client w h, ?_, ?_, ?_, ?_, ?_⟩
  · rw [effects_denied fs client w h]; rfl
  · rw [effects_denied fs client w h]; rfl
  · rw [effects_denied fs client w h]; simp [closesOf]
  · rw [effects_denied fs client w h]; rfl
  · rw [handleClient_denied fs client w h]

/-- C2 at ACL `["10.0.0.5"]` and peer `10.0.0.6:51000`. -/
theorem denied_writes_nothing_and_closes_witness :
    isAllowed (startWorld sampleConf false).vars.conf.ACL
        (Conn.mk "10.0.0.6:51000" none).remoteAddr = false ∧
    writesOf (effects sampleTree (Conn.mk "10.0.0.6:51000" none)
        (startWorld sampleConf false)) = [] ∧
    walksOf (effects sampleTree (Conn.mk "10.0.0.6:51000" none)
        (startWorld sampleConf false)) = [] ∧
    0 < closesOf (effects sampleTree (Conn.mk "10.0.0.6:51000" none)
        (startWorld sampleConf false)) :=
  have h := denied_writes_nothing_and_closes sampleTree (Conn.mk "10.0.0.6:51000" none)
    (startWorld sampleConf false) (by decide)
  ⟨by decide, h.2.2.1, h.2.2.2.1, h.2.2.2.2.1⟩

/-- C3: the number of values `handleClient` sends on its channel is one on the allowed path
and zero on the denied path; with ACL `["10.0.0.5"]` the handler of peer `10.0.0.6:51000`
returns without sending, so the receive of the accept loop is never matched. -/
theorem denied_handler_sends_no_signal :
    (∀ (fs : FsNode) (client : Conn) (w : World),
      sendsOf (effects fs client w) =
        if isAllowed w.vars.conf.ACL client.remoteAddr then ["Sending Index to client"]
        else []) ∧
    sendsOf (effects sampleTree (Conn.mk "10.0.0.6:51000" none)
      (startWorld sampleConf false)) = [] ∧
    receive (startWorld sampleConf false)
      (handleClient sampleTree (Conn.mk "10.0.0.6:51000" none)
        (startWorld sampleConf false)) = none ∧
    receive (startWorld sampleConf false)
      (handleClient sampleTree (Conn.mk "10.0.0.5:51000" none)
        (startWorld sampleConf false)) = some "Sending Index to client" := by
  refine ⟨?_, by decide, by decide, by decide⟩
  intro fs client w
  cases ha : isAllowed w.vars.conf.ACL client.remoteAddr
  · rw [effects_denied fs client w ha]; rfl
  · rw [effects_allowed fs client w ha]
    cases client.writeErr <;> rfl

/-! ## The allowed path -/

/-- C4: a connection from an allowed peer, handled after any number of connections that
were each handled to completion, gets exactly one write, whose payload is the
concatenation in visit order of `p ++ "\n"` for the paths `p` the walk visits under the
configured root (the paths `filepath.Walk` hands to a callback that only notes them),
with nothing before, between or after; no paths give the empty payload. -/
theorem allowed_single_write_of_listing (conf : indexdConfig) (isDebug : Bool)
    (history : List (Conn × FsNode)) (fs : FsNode) (client : Conn)
    (h : isAllowed conf.ACL client.remoteAddr = true) :
    writesOf (effects fs client (handleAll history (startWorld conf isDebug))) =
      [concatLines (visits conf.IndexdDirectory fs)] ∧
    (Walk conf.IndexdDirectory fs record []).1 = visits conf.IndexdDirectory fs ∧
    concatLines [] = "" ∧
    (∀ (p : String) (ps : List String), concatLines (p :: ps) = p ++ "\n" ++ concatLines ps) := by
  have hv : (handleAll history (startWorld conf isDebug)).vars = (startWorld conf isDebug).vars :=
    handleAll_vars history _ rfl
  refine ⟨?_, by rw [Walk_record], rfl, fun _ _ => rfl⟩
  rw [writesOf_allowed fs client _ (by rw [hv]; exact h), hv]
  simp [startWorld]

/-- C4 at ACL `["10.0.0.5"]` and peer `10.0.0.5:51000`, after one denied connection. -/
theorem allowed_single_write_of_listing_witness :
    isAllowed sampleConf.ACL (Conn.mk "10.0.0.5:51000" none).remoteAddr = true ∧
    writesOf (effects sampleTree (Conn.mk "10.0.0.5:51000" none)
      (handleAll [(Conn.mk "10.0.0.6:40000" none, faultyTree)]
        (startWorld sampleConf true))) =
      [concatLines (visits sampleConf.IndexdDirectory sampleTree)] :=
  ⟨by decide,
   (allowed_single_write_of_listing sampleConf true
      [(Conn.mk "10.0.0.6:40000" none, faultyTree)] sampleTree
      (Conn.mk "10.0.0.5:51000" none) (by decide)).1⟩

/-- C5, as the code has it: for a root directory holding exactly `a.txt` and `sub/b.txt`,
configured by a cleaned path other than `/` and `.`, the body an allowed client receives,
split on newline with the empty strings removed, is the four lines `root`, `root/a.txt`,
`root/sub`, `root/sub/b.txt`: the root and the subdirectory are listed as well as the two
files. -/
theorem sample_tree_body_four_lines (conf : indexdConfig) (isDebug : Bool)
    (history : List (Conn × FsNode)) (client : Conn)
    (h : isAllowed conf.ACL client.remoteAddr = true)
    (hc : Clean conf.IndexdDirectory = conf.IndexdDirectory)
    (h1 : conf.IndexdDirectory ≠ "/") (h2 : conf.IndexdDirectory ≠ ".")
    (hnl : '\n' ∉ conf.IndexdDirectory.data) :
    ∃ body : String,
      writesOf (effects sampleTree client (handleAll history (startWorld conf isDebug))) =
        [body] ∧
      bodyLines body =
        [conf.IndexdDirectory, conf.IndexdDirectory ++ "/a.txt",
         conf.IndexdDirectory ++ "/sub", conf.IndexdDirectory ++ "/sub/b.txt"] := by
  have hv : (handleAll history (startWorld conf isDebug)).vars = (startWorld conf isDebug).vars :=
    handleAll_vars history _ rfl
  have hne : conf.IndexdDirectory ≠ "" := by
    intro e
    rw [e] at hc
    exact absurd hc (by decide)
  refine ⟨concatLines (visits conf.IndexdDirectory sampleTree), ?_, ?_⟩
  · rw [writesOf_allowed sampleTree client _ (by rw [hv]; exact h), hv]
    simp [startWorld]
  · rw [visits_sampleTree _ hc h1 h2]
    apply bodyLines_concatLines
    intro p hp
    simp only [List.mem_cons, List.mem_singleton, List.not_mem_nil, or_false] at hp
    rcases hp with rfl | rfl | rfl | rfl
    · exact ⟨hne, hnl⟩
    · refine ⟨fun e => ?_, ?_⟩
      · have := congrArg String.data e
        simp [String.data_append] at this
      · simp only [String.data_append, List.mem_append, not_or]
        exact ⟨hnl, by decide⟩
    · refine ⟨fun e => ?_, ?_⟩
      · have := congrArg String.data e
        simp [String.data_append] at this
      · simp only [String.data_append, List.mem_append, not_or]
        exact ⟨hnl, by decide⟩
    · refine ⟨fun e => ?_, ?_⟩
      · have := congrArg String.data e
        simp [String.data_append] at this
      · simp only [String.data_append, List.mem_append, not_or]
        exact ⟨hnl, by decide⟩

/-- C5, as the code has it, at root `/srv/index` and peer `10.0.0.5:51000`. -/
theorem sample_tree_body_four_lines_witness :
    isAllowed sampleConf.ACL (Conn.mk "10.0.0.5:51000" none).remoteAddr = true ∧
    Clean sampleConf.IndexdDirectory = sampleConf.IndexdDirectory ∧
    sampleConf.IndexdDirectory ≠ "/" ∧ sampleConf.IndexdDirectory ≠ "." ∧
    '\n' ∉ sampleConf.IndexdDirectory.data ∧
    ∃ body : String,
      writesOf (effects sampleTree (Conn.mk "10.0.0.5:51000" none)
        (handleAll [] (startWorld sampleConf false))) = [body] ∧
      bodyLines body =
        [sampleConf.IndexdDirectory, sampleConf.IndexdDirectory ++ "/a.txt",
         sampleConf.IndexdDirectory ++ "/sub", sampleConf.IndexdDirectory ++ "/sub/b.txt"] :=
  ⟨by decide, by decide, by decide, by decide, by decide,
   sample_tree_body_four_lines sampleConf false [] (Conn.mk "10.0.0.5:51000" none)
     (by decide) (by decide) (by decide) (by decide) (by decide)⟩

/-- C5, as stated, fails: with root `/srv/index` holding exactly `a.txt` and `sub/b.txt`, the
body written to the allowed peer `10.0.0.5:51000` has the four lines `/srv/index`,
`/srv/index/a.txt`, `/srv/index/sub` and `/srv/index/sub/b.txt`, so its set of lines is
not the set of the two file paths. -/
theorem sample_tree_body_not_two_lines :
    writesOf (effects sampleTree (Conn.mk "10.0.0.5:51000" none)
      (startWorld sampleConf false)) =
      ["/srv/index\n/srv/index/a.txt\n/srv/index/sub\n/srv/index/sub/b.txt\n"] ∧
    bodyLines "/srv/index\n/srv/index/a.txt\n/srv/index/sub\n/srv/index/sub/b.txt\n" =
      ["/srv/index", "/srv/index/a.txt", "/srv/index/sub", "/srv/index/sub/b.txt"] ∧
    ¬ (∀ l : String,
        l ∈ bodyLines "/srv/index\n/srv/index/a.txt\n/srv/index/sub\n/srv/index/sub/b.txt\n" ↔
          (l = "/srv/index/a.txt" ∨ l = "/srv/index/sub/b.txt")) := by
  refine ⟨by decide, by decide, ?_⟩
  intro hall
  have hmem : "/srv/index" ∈
      bodyLines "/srv/index\n/srv/index/a.txt\n/srv/index/sub\n/srv/index/sub/b.txt\n" := by
    decide
  rcases (hall "/srv/index").1 hmem with e | e
  · exact absurd e (by decide)
  · exact absurd e (by decide)

/-- C6: two connections from allowed peers handled one after the other, the first to
completion whatever its write returned, against trees on which the walk visits the same
sequence of paths, get the same payload; after the first handler the package-level
variables are what they were before it. -/
theorem sequential_requests_same_payload (conf : indexdConfig) (isDebug : Bool)
    (history : List (Conn × FsNode)) (fs₁ fs₂ : FsNode) (c₁ c₂ : Conn)
    (h₁ : isAllowed conf.ACL c₁.remoteAddr = true)
    (h₂ : isAllowed conf.ACL c₂.remoteAddr = true)
    (hsame : visits conf.IndexdDirectory fs₁ = visits conf.IndexdDirectory fs₂) :
    writesOf (effects fs₁ c₁ (handleAll history (startWorld conf isDebug))) =
      [concatLines (visits conf.IndexdDirectory fs₁)] ∧
    writesOf (effects fs₂ c₂
        (handleClient fs₁ c₁ (handleAll history (startWorld conf isDebug)))) =
      writesOf (effects fs₁ c₁ (handleAll history (startWorld conf isDebug))) ∧
    (handleClient fs₁ c₁ (handleAll history (startWorld conf isDebug))).vars =
      (handleAll history (startWorld conf isDebug)).vars := by
  have hv : (handleAll history (startWorld conf isDebug)).vars = (startWorld conf isDebug).vars :=
    handleAll_vars history _ rfl
  have hl : (handleAll history (startWorld conf isDebug)).vars.listing = "" := by rw [hv]; rfl
  have hv1 := handleClient_vars fs₁ c₁ _ hl
  have w1 : writesOf (effects fs₁ c₁ (handleAll history (startWorld conf isDebug))) =
      [concatLines (visits conf.IndexdDirectory fs₁)] := by
    rw [writesOf_allowed fs₁ c₁ _ (by rw [hv]; exact h₁), hv]
    simp [startWorld]
  refine ⟨w1, ?_, hv1⟩
  rw [w1, writesOf_allowed fs₂ c₂ _ (by rw [hv1, hv]; exact h₂), hv1, hv, hsame]
  simp [startWorld]

/-- C6 at two connections from host `10.0.0.5`, the write of the first failing. -/
theorem sequential_requests_same_payload_witness :
    isAllowed sampleConf.ACL (Conn.mk "10.0.0.5:51000" (some (.other "broken pipe"))).remoteAddr
      = true ∧
    isAllowed sampleConf.ACL (Conn.mk "10.0.0.5:51001" none).remoteAddr = true ∧
    visits sampleConf.IndexdDirectory sampleTree = visits sampleConf.IndexdDirectory sampleTree ∧
    writesOf (effects sampleTree (Conn.mk "10.0.0.5:51001" none)
        (handleClient sampleTree (Conn.mk "10.0.0.5:51000" (some (.other "broken pipe")))
          (handleAll [] (startWorld sampleConf false)))) =
      writesOf (effects sampleTree (Conn.mk "10.0.0.5:51000" (some (.other "broken pipe")))
        (handleAll [] (startWorld sampleConf false))) :=
  ⟨by decide, by decide, rfl,
   (sequential_requests_same_payload sampleConf false [] sampleTree sampleTree
      (Conn.mk "10.0.0.5:51000" (some (.other "broken pipe"))) (Conn.mk "10.0.0.5:51001" none)
      (by decide) (by decide) rfl).2.1⟩

/-! ## The listing generator -/

/-- C7, as the code has it, with no other handler running in between: `getListing`
returns nothing and accumulates into the package-level variable `listing`, which
afterwards is its former value followed by `p ++ "\n"` for each visited path `p`, while
`isDebug` and `conf` keep their values; the payload `sendIndex` writes, and so the one
write of an allowed handler, is the value of that package-level variable; and
`handleClient` resets the variable to `""` after `sendIndex` returns on its allowed path
and leaves it untouched on its denied path. -/
theorem getListing_appends_to_global (fs : FsNode) (c : Conn) (w : World) :
    (getListing fs w).vars =
      { w.vars with
        listing := w.vars.listing ++ concatLines (visits w.vars.conf.IndexdDirectory fs) } ∧
    (getListing fs w).vars.isDebug = w.vars.isDebug ∧
    (getListing fs w).vars.conf = w.vars.conf ∧
    writesOf ((sendIndex fs c w).trace.drop w.trace.length) =
      [(getListing fs w).vars.listing] ∧
    (sendIndex fs c w).vars = (getListing fs w).vars ∧
    writesOf (effects fs c w) =
      (if isAllowed w.vars.conf.ACL c.remoteAddr then [(getListing fs w).vars.listing]
       else []) ∧
    (handleClient fs c w).vars =
      (if isAllowed w.vars.conf.ACL c.remoteAddr then { w.vars with listing := "" }
       else w.vars) := by
  have hs : writesOf ((sendIndex fs c w).trace.drop w.trace.length) =
      [(getListing fs w).vars.listing] := by
    rw [getListing_eq, sendIndex_eq]
    cases c.writeErr <;> simp [writesOf]
  refine ⟨by rw [getListing_eq], by rw [getListing_eq], by rw [getListing_eq], hs,
    by rw [getListing_eq, sendIndex_eq], ?_, ?_⟩
  · cases ha : isAllowed w.vars.conf.ACL c.remoteAddr
    · rw [effects_denied fs c w ha]
      rfl
    · rw [writesOf_allowed fs c w ha, getListing_eq]
      rfl
  · cases ha : isAllowed w.vars.conf.ACL c.remoteAddr
    · rw [handleClient_denied fs c w ha]
      rfl
    · rw [handleClient_allowed fs c w ha]
      rfl

/-- C7, as stated, fails: in the world the server starts in, with a plain file at the
configured root `/srv/index`, the package-level variable `listing` is `""` before
`getListing` and `"/srv/index\n"` after it. -/
theorem getListing_changes_global :
    (startWorld sampleConf false).vars.listing = "" ∧
    (getListing FsNode.file (startWorld sampleConf false)).vars.listing = "/srv/index\n" ∧
    (getListing FsNode.file (startWorld sampleConf false)).vars ≠
      (startWorld sampleConf false).vars := by
  decide

/-- C8: the walk callback `do` returns `nil` for every path, file info and error, so
`filepath.Walk` with it never stops early and never fails: every call the walk makes,
those after an erroring entry included, adds its line to the listing. In a directory
whose first entry cannot be stat-ed and whose second cannot be read, the third entry is
still listed. -/
theorem do_returns_nil_walk_never_aborts :
    (∀ (path : String) (info : Option FileInfo) (err : Option GoError) (g : Globals),
      («do» path info err g).2 = none) ∧
    (∀ (root : String) (fs : FsNode) (g : Globals),
      (Walk root fs «do» g).2 = none ∧
      (Walk root fs «do» g).1.listing =
        g.listing ++ concatLines ((reports root fs).map fun r => r.1)) ∧
    reports "/srv/index" faultyTree =
      [("/srv/index", some { IsDir := true }, none),
       ("/srv/index/bad", none, some (.other "permission denied")),
       ("/srv/index/locked", some { IsDir := true }, some (.other "permission denied")),
       ("/srv/index/z", some { IsDir := false }, none)] ∧
    (Walk "/srv/index" faultyTree «do» (startWorld sampleConf false).vars).1.listing =
      "/srv/index\n/srv/index/bad\n/srv/index/locked\n/srv/index/z\n" := by
  refine ⟨fun _ _ _ _ => rfl, fun root fs g => ?_, by decide, by decide⟩
  rw [Walk_do]
  exact ⟨rfl, rfl⟩

/-- C9, as the code has it: a call of `do` with a non-nil error for path `p` appends
`p ++ "\n"` to the listing like any other call, and returns `nil`: the erroring entry is
listed, not skipped. -/
theorem do_lists_erroring_entry (p : String) (info : Option FileInfo) (e : GoError)
    (g : Globals) :
    («do» p info (some e) g).1.listing = g.listing ++ (p ++ "\n") ∧
    («do» p info (some e) g).1 = («do» p info none g).1 ∧
    («do» p info (some e) g).2 = none :=
  ⟨rfl, rfl, rfl⟩

/-- C9, as stated, fails: called for `/srv/index/bad` with the error "permission denied"
on an empty listing, `do` leaves the listing `"/srv/index/bad\n"`. -/
theorem do_error_changes_listing :
    («do» "/srv/index/bad" none (some (.other "permission denied"))
      (startWorld sampleConf false).vars).1.listing = "/srv/index/bad\n" ∧
    («do» "/srv/index/bad" none (some (.other "permission denied"))
      (startWorld sampleConf false).vars).1.listing ≠
      (startWorld sampleConf false).vars.listing := by
  decide

end Indexd
